import Mathlib

/-!
# tusk: `utils.go` — pattern matching, admin check, message parsing, list utilities

A shallow embedding of `src/utils.go` (package `tusk`).

Go strings are embedded as lists of Unicode code points (`Str`); every string
the functions below handle is taken to be valid UTF-8, on which the byte-level
library functions used by the source (`HasPrefix`, `HasSuffix`, `Contains`,
`Replace`, `Split`, `TrimPrefix`, `TrimSpace`) agree with their code-point-level
counterparts defined here.

Everything that `utils.go` takes from outside the file is a parameter:

* `Config.Users.Admins` (a package-level variable declared elsewhere) is the
  argument `admins`;
* `regexp.Compile` is the argument `Compile`, returning `none` for a non-nil error;
* the `girc` client and event are records of what `ParseMessage` reads from them.

`ParseMessage` indexes two slices (`e.Params[0]` and `msgSplit[:1][0]`); an index
out of range is a run-time panic in Go and the result `none` here.
-/

namespace Tusk

/-- A Go `string`, as its sequence of code points. -/
abbrev Str := List Char

/-! ## The parts of Go's `strings` package used by `utils.go` -/

/-- Go `strings.HasPrefix(s, prefix)`. -/
def HasPrefix (s pre : Str) : Bool := pre.isPrefixOf s

/-- Go `strings.HasSuffix(s, suffix)`. -/
def HasSuffix (s suf : Str) : Bool := suf.isSuffixOf s

/-- Go `strings.Contains(s, substr)`: `substr` occurs at some position of `s`. -/
def Contains : Str → Str → Bool
  | [], substr => HasPrefix [] substr
  | c :: cs, substr => HasPrefix (c :: cs) substr || Contains cs substr

/-- Go `strings.TrimPrefix(s, prefix)`: `s` without the leading `prefix`, or `s`
unchanged when it does not start with `prefix`. -/
def TrimPrefix (s pre : Str) : Str :=
  if HasPrefix s pre then s.drop pre.length else s

/-- Scanning loop of `Replace`: `skip` counts the characters of a matched `old`
still to be skipped. -/
def replaceLoop (old new : Str) : Nat → Str → Str
  | _, [] => []
  | skip + 1, _ :: cs => replaceLoop old new skip cs
  | 0, c :: cs =>
    if HasPrefix (c :: cs) old then new ++ replaceLoop old new (old.length - 1) cs
    else c :: replaceLoop old new 0 cs

/-- Go `strings.Replace(s, old, new, -1)` for a non-empty `old` (both calls in
`utils.go` pass a one-character `old` and `n = -1`): every non-overlapping
occurrence of `old`, scanning from the left, is replaced by `new`. -/
def Replace (s old new : Str) : Str := replaceLoop old new 0 s

/-- Go `strings.Split(s, sep)` for a one-character separator (the only call in
`utils.go` passes `" "`): the pieces between consecutive separators, empty
pieces included; a string without separator, also the empty one, gives one piece. -/
def Split (s : Str) (sep : Char) : List Str := s.splitOn sep

/-- Go `unicode.IsSpace`: the characters with Unicode's White Space property. -/
def isSpace (c : Char) : Bool :=
  let n := c.toNat
  (9 ≤ n && n ≤ 13) || n == 32 || n == 133 || n == 160 || n == 5760 ||
  (8192 ≤ n && n ≤ 8202) || n == 8232 || n == 8233 || n == 8239 || n == 8287 ||
  n == 12288

/-- Go `strings.TrimSpace(s)`: `s` without its leading and trailing white space. -/
def TrimSpace (s : Str) : Str := ((s.dropWhile isSpace).reverse.dropWhile isSpace).reverse

/-! ## Regular expressions (package `regexp`, external) -/

/-- A compiled regular expression (`*regexp.Regexp`), seen through the one
method `utils.go` calls on it. -/
structure Regexp where
  /-- Go `(*Regexp).MatchString`: does the expression match somewhere in the string. -/
  MatchString : Str → Bool

/-- The type of `regexp.Compile`; `none` stands for a non-nil error. -/
abbrev Compiler := Str → Option Regexp

/-! ## `utils.go` -/

/-- `Matches` of `utils.go`: checks `checking` against `requirement`, which is a
regular expression (`re:` prefix), a glob (leading or trailing `*`) or an exact
string. -/
def Matches (Compile : Compiler) (requirement checking : Str) : Bool :=
  let matchFromEnd := HasPrefix requirement "*".toList
  let matchFromBeginning := HasSuffix requirement "*".toList
  let hasReg := HasPrefix requirement "re:".toList
  if hasReg then
    let regexMessage := TrimPrefix requirement "re:".toList
    match Compile regexMessage with
    | some regex => if regex.MatchString checking then true else false
    | none => false
  else if matchFromEnd || matchFromBeginning then
    let noGlobMatch := Replace requirement "*".toList "".toList
    if matchFromEnd && matchFromBeginning then
      if Contains checking noGlobMatch then true else false
    else if matchFromEnd && !matchFromBeginning then
      if HasSuffix checking noGlobMatch then true else false
    else if !matchFromEnd && matchFromBeginning then
      if HasPrefix checking noGlobMatch then true else false
    else false
  else
    if checking = requirement then true else false

/-- The `for ... range Config.Users.Admins` loop of `IsAdmin`; the second
argument is the current value of the named result `userIsAdmin`, returned as it
stands when the list is exhausted or the loop breaks. -/
def isAdminLoop (Compile : Compiler) (issuer fullIssuer host : Str) : List Str → Bool → Bool
  | [], userIsAdmin => userIsAdmin
  | admin :: rest, _ =>
    let userIsAdmin := Matches Compile admin issuer
    let userIsAdmin := if !userIsAdmin then Matches Compile admin host else userIsAdmin
    let userIsAdmin := if !userIsAdmin then Matches Compile admin fullIssuer else userIsAdmin
    if userIsAdmin then userIsAdmin
    else isAdminLoop Compile issuer fullIssuer host rest userIsAdmin

/-- `IsAdmin` of `utils.go`; `admins` is `Config.Users.Admins`. -/
def IsAdmin (Compile : Compiler) (admins : List Str) (issuer fullIssuer host : Str) : Bool :=
  isAdminLoop Compile issuer fullIssuer host admins false

/-! ## `ParseMessage` and the parts of `girc` it reads -/

/-- The sender of an event (`girc.Source`): nick, ident and host. -/
structure Source where
  Name : Str
  Ident : Str
  Host : Str

/-- An incoming event (`girc.Event`), reduced to what `ParseMessage` reads: the
sender, the protocol parameters, and the transport's answer to `IsFromChannel()`. -/
structure Event where
  Source : Source
  Params : List Str
  IsFromChannel : Bool

/-- The girc method `(*Event).Last`: the last parameter of the event, or the
empty string when the event has no parameter. -/
def Event.Last (e : Event) : Str := e.Params.getLastD []

/-- A user's permissions in one channel (`girc.Perms`), seen through `IsTrusted()`. -/
structure Perms where
  IsTrusted : Bool

/-- The per-channel permissions of a user (`girc.UserPerms`): `Lookup(channel)`
is `none` when nothing is recorded for the channel. -/
structure UserPerms where
  Lookup : Str → Option Perms

/-- A user known to the transport (`girc.User`). -/
structure User where
  Perms : UserPerms

/-- The transport client (`girc.Client`), seen through `LookupUser`, which is
`none` (a nil pointer) for an unknown user. -/
structure Client where
  LookupUser : Str → Option User

/-- The record `ParseMessage` returns (the type `NarwhalMessage` is declared
elsewhere in the package; these are the fields of the literal at the end of
`ParseMessage`). -/
structure NarwhalMessage where
  Admin : Bool
  Authenticated : Bool
  Channel : Str
  Command : Str
  Host : Str
  FullIssuer : Str
  Issuer : Str
  Message : Str
  MessageNoCmd : Str
  Params : List Str

/-- The `for ... range Config.Users.Admins` loop in the direct-message branch of
`ParseMessage`; the last argument is the current value of `userInFullIssuer`. -/
def fullIssuerLoop (Compile : Compiler) (fullIssuer : Str) : List Str → Bool → Bool
  | [], userInFullIssuer => userInFullIssuer
  | admin :: rest, _ =>
    let userInFullIssuer := Matches Compile admin fullIssuer
    if userInFullIssuer then userInFullIssuer
    else fullIssuerLoop Compile fullIssuer rest userInFullIssuer

/-- Lines 140-162 of `ParseMessage`: the values of `channel` and `authenticated`
after the user lookup. `none` is the run-time panic of `e.Params[0]` on an event
without parameters. -/
def parseAuth (Compile : Compiler) (admins : List Str) (c : Client) (e : Event)
    (user fullIssuer : Str) : Option (Str × Bool) :=
  match c.LookupUser user with
  | some clientUser =>
    if e.IsFromChannel then
      match e.Params with
      | [] => none
      | channel :: _ =>
        match clientUser.Perms.Lookup channel with
        | some channelPerms => some (channel, channelPerms.IsTrusted)
        | none => some (channel, false)
    else
      some ([], fullIssuerLoop Compile fullIssuer admins false)
  | none => some ([], false)

/-- Lines 164-173 of `ParseMessage`: the values of `command` and `params` for the
trimmed text `message`. `none` is the run-time panic of `msgSplit[:1][0]` on an
empty `msgSplit`. -/
def parseCommand (message : Str) : Option (Str × List Str) :=
  let msgSplit := Split message ' '
  if HasPrefix message ".".toList then
    match msgSplit with
    | [] => none
    | first :: rest =>
      let command := Replace first ".".toList "".toList
      if msgSplit.length > 1 then some (command, rest) else some (command, [])
  else some ([], [])

/-- `ParseMessage` of `utils.go`; `admins` is `Config.Users.Admins`, and `none`
is a run-time panic. -/
def ParseMessage (Compile : Compiler) (admins : List Str) (c : Client) (e : Event) :
    Option NarwhalMessage :=
  let user := if e.Source.Name = [] then e.Source.Ident else e.Source.Name
  let fullIssuer := e.Source.Ident ++ "@".toList ++ e.Source.Host
  match parseAuth Compile admins c e user fullIssuer with
  | none => none
  | some (channel, authenticated) =>
    let message := TrimSpace e.Last
    match parseCommand message with
    | none => none
    | some (command, params) =>
      some {
        Admin := IsAdmin Compile admins user fullIssuer e.Source.Host && authenticated
        Authenticated := authenticated
        Channel := channel
        Command := command
        Host := e.Source.Host
        FullIssuer := fullIssuer
        Issuer := user
        Message := e.Last
        MessageNoCmd := TrimSpace (TrimPrefix message (".".toList ++ command))
        Params := params }

/-! ## The list utilities of `utils.go` -/

/-- A Go `map[string]bool`: the value stored under each key, `none` for a key
that is not in the map. -/
abbrev StringBoolMap := Str → Option Bool

/-- The empty map, `make(map[string]bool)`. -/
def emptyMap : StringBoolMap := fun _ => none

/-- The assignment `m[key] = value`. -/
def mapSet (m : StringBoolMap) (key : Str) (value : Bool) : StringBoolMap :=
  fun k => if k = key then some value else m k

/-- The test `_, exists := m[key]`. -/
def mapHas (m : StringBoolMap) (key : Str) : Bool := (m key).isSome

/-- Go `sort.Strings`: the strings in increasing order, the order of Go strings
being the lexicographic one on bytes, which on valid UTF-8 is the lexicographic
order on code points. -/
def sortStrings (list : List Str) : List Str := list.insertionSort (fun a b => a ≤ b)

/-- The loop of `DeduplicateList`, on the entries still to be read, the map
`itemsInList` and the slice `newList`. -/
def deduplicateLoop : List Str → StringBoolMap → List Str → List Str
  | [], _, newList => newList
  | entry :: rest, itemsInList, newList =>
    if !mapHas itemsInList entry then
      deduplicateLoop rest (mapSet itemsInList entry true) (newList ++ [entry])
    else deduplicateLoop rest itemsInList newList

/-- `DeduplicateList` of `utils.go`. -/
def DeduplicateList (list : List Str) : List Str :=
  sortStrings (deduplicateLoop list emptyMap [])

/-- The inner loop of `RemoveFromStringArr` for one `item` of the list, on the
items to remove still to be read: the map `itemsList` when the loop ends or breaks. -/
def removeInnerLoop (item : Str) : List Str → StringBoolMap → StringBoolMap
  | [], itemsList => itemsList
  | itemToRemove :: rest, itemsList =>
    if itemToRemove = item then mapSet itemsList itemToRemove true
    else removeInnerLoop item rest itemsList

/-- The outer loop of `RemoveFromStringArr`, on the items of the list still to
be read, the map `itemsList` and the slice `newList`. -/
def removeLoop (items : List Str) : List Str → StringBoolMap → List Str → List Str
  | [], _, newList => newList
  | item :: rest, itemsList, newList =>
    let itemsList := removeInnerLoop item items itemsList
    if !mapHas itemsList item then removeLoop items rest itemsList (newList ++ [item])
    else removeLoop items rest itemsList newList

/-- `RemoveFromStringArr` of `utils.go`. -/
def RemoveFromStringArr (list items : List Str) : List Str :=
  removeLoop items list emptyMap []

/-! ## A concrete regular-expression engine for a fragment of Go's syntax

The theorems about `Matches` hold for every `Compile`. To evaluate `Matches` on
concrete `re:` patterns, `regexpCompile` below implements the fragment of Go's
(RE2) syntax made of literal characters, `.`, postfix `*`, `^`, `$`, groups
`( )` and alternation `|`. Patterns that use other metacharacters (`+ ? [ { \`)
are outside the fragment: `regexpCompile` refuses them, which says nothing about
Go's own compiler. -/

/-- Abstract syntax of the fragment. -/
inductive Re where
  | empty
  | lit (c : Char)
  | any
  | bol
  | eol
  | cat (a b : Re)
  | alt (a b : Re)
  | star (a : Re)

/-- Iteration for `star`: the positions reachable from `i` by repeating `f`, each
round advancing the position (a round that does not advance adds nothing). -/
def starLoop (f : Nat → List Nat) : Nat → Nat → List Nat
  | 0, i => [i]
  | fuel + 1, i => i :: ((f i).filter (fun j => i < j)).flatMap (starLoop f fuel)

/-- The positions at which a match of the expression that starts at position `i`
of `s` can end. `.` matches any character but a newline; `^` and `$` match at the
beginning and at the end of the text. -/
def Re.ends (s : Str) : Re → Nat → List Nat
  | .empty, i => [i]
  | .lit c, i => if s.get? i = some c then [i + 1] else []
  | .any, i =>
    match s.get? i with
    | some c => if c = '\n' then [] else [i + 1]
    | none => []
  | .bol, i => if i = 0 then [i] else []
  | .eol, i => if i = s.length then [i] else []
  | .cat a b, i => (a.ends s i).flatMap (fun j => b.ends s j)
  | .alt a b, i => a.ends s i ++ b.ends s i
  | .star a, i => starLoop (fun j => a.ends s j) (s.length + 1) i

/-- Unanchored search: the expression matches starting at some position of `s`. -/
def Re.search (r : Re) (s : Str) : Bool :=
  (List.range (s.length + 1)).any (fun i => !(r.ends s i).isEmpty)

/-- One open group of the parser: the alternatives already closed by `|` and the
items of the concatenation being read, both latest first. -/
structure Frame where
  alts : List Re
  items : List Re

/-- The concatenation of the items of a frame (given latest first). -/
def catOf (items : List Re) : Re := items.foldl (fun acc r => Re.cat r acc) Re.empty

/-- The expression a frame stands for when it is closed. -/
def closeFrame (f : Frame) : Re := f.alts.foldl (fun acc r => Re.alt r acc) (catOf f.items)

/-- Stack-based parser of the fragment; the head of the stack is the innermost
open group. `none` is a syntax error: an unmatched parenthesis, a `*` with
nothing to repeat or directly after another `*`, or a character outside the
fragment. -/
def parseLoop : List Frame → Str → Option Re
  | [f], [] => some (closeFrame f)
  | _, [] => none
  | [], _ :: _ => none
  | f :: stack, c :: cs =>
    if c = '(' then parseLoop (⟨[], []⟩ :: f :: stack) cs
    else if c = ')' then
      match stack with
      | [] => none
      | g :: outer => parseLoop (⟨g.alts, closeFrame f :: g.items⟩ :: outer) cs
    else if c = '|' then parseLoop (⟨catOf f.items :: f.alts, []⟩ :: stack) cs
    else if c = '*' then
      match f.items with
      | [] => none
      | Re.star _ :: _ => none
      | r :: rs => parseLoop (⟨f.alts, Re.star r :: rs⟩ :: stack) cs
    else if c = '.' then parseLoop (⟨f.alts, Re.any :: f.items⟩ :: stack) cs
    else if c = '^' then parseLoop (⟨f.alts, Re.bol :: f.items⟩ :: stack) cs
    else if c = '$' then parseLoop (⟨f.alts, Re.eol :: f.items⟩ :: stack) cs
    else if c = '+' ∨ c = '?' ∨ c = '[' ∨ c = '{' ∨ c = '\\' then none
    else parseLoop (⟨f.alts, Re.lit c :: f.items⟩ :: stack) cs

/-- A `regexp.Compile` for the fragment. -/
def regexpCompile : Compiler := fun expr =>
  (parseLoop [⟨[], []⟩] expr).map (fun r => ⟨r.search⟩)

/-! ## Concrete events and clients used to evaluate the definitions -/

/-- The sender `alice!al@example.org`. -/
def alice : Source := ⟨"alice".toList, "al".toList, "example.org".toList⟩

/-- A message with the given text sent by `alice` to the channel `#ops`. -/
def channelMessage (text : Str) : Event := ⟨alice, ["#ops".toList, text], true⟩

/-- A message with the given text sent by `alice` directly to the bot `tusk`. -/
def directMessage (text : Str) : Event := ⟨alice, ["tusk".toList, text], false⟩

/-- A client that knows every user and records each of them as trusted in every
channel. -/
def trustingClient : Client := ⟨fun _ => some ⟨⟨fun _ => some ⟨true⟩⟩⟩⟩

/-- A client that knows every user and records each of them as not trusted in
every channel. -/
def distrustingClient : Client := ⟨fun _ => some ⟨⟨fun _ => some ⟨false⟩⟩⟩⟩

/-- A client that knows no user. -/
def strangerClient : Client := ⟨fun _ => none⟩

/-! ## Lemmas on the string functions -/

theorem hasPrefix_iff (s p : Str) : HasPrefix s p = true ↔ p <+: s := by
  unfold HasPrefix; exact List.isPrefixOf_iff_prefix

theorem hasSuffix_iff (s p : Str) : HasSuffix s p = true ↔ p <:+ s := by
  unfold HasSuffix; exact List.isSuffixOf_iff_suffix

theorem hasPrefix_eq_false (s p : Str) (h : ¬ p <+: s) : HasPrefix s p = false := by
  cases hp : HasPrefix s p
  · rfl
  · exact absurd ((hasPrefix_iff s p).1 hp) h

theorem hasSuffix_eq_false (s p : Str) (h : ¬ p <:+ s) : HasSuffix s p = false := by
  cases hp : HasSuffix s p
  · rfl
  · exact absurd ((hasSuffix_iff s p).1 hp) h

theorem contains_iff (s sub : Str) : Contains s sub = true ↔ sub <:+: s := by
  induction s with
  | nil =>
    simp only [Contains, hasPrefix_iff]
    constructor
    · intro h; exact h.isInfix
    · intro h; rw [List.infix_nil] at h; subst h; exact List.prefix_refl _
  | cons c cs ih =>
    simp only [Contains, Bool.or_eq_true, hasPrefix_iff, ih, List.infix_cons_iff]

theorem replaceLoop_single (c : Char) (s : Str) :
    replaceLoop [c] [] 0 s = s.filter (fun x => x != c) := by
  induction s with
  | nil => rfl
  | cons x xs ih =>
    simp only [replaceLoop, HasPrefix, List.length_singleton, Nat.sub_self, ih, List.nil_append]
    by_cases h : x = c
    · subst h; simp [List.isPrefixOf]
    · have h' : ¬ c = x := fun e => h e.symm
      simp [List.isPrefixOf, h, h']

/-- Replacing a one-character string by the empty string removes every
occurrence of the character. -/
theorem replace_single (c : Char) (s : Str) :
    Replace s [c] [] = s.filter (fun x => x != c) := replaceLoop_single c s

theorem dropWhile_isSpace_append (ws s : Str) (h : ∀ x ∈ ws, isSpace x = true) :
    (ws ++ s).dropWhile isSpace = s.dropWhile isSpace := by
  induction ws with
  | nil => rfl
  | cons w ws ih =>
    have hw : isSpace w = true := h w (List.mem_cons_self _ _)
    simp only [List.cons_append, List.dropWhile_cons, hw, if_true]
    exact ih (fun x hx => h x (List.mem_cons_of_mem _ hx))

/-- `TrimSpace` removes surrounding white space, and only that, around a text
whose first and last characters are not white space. -/
theorem trimSpace_surrounded (ws1 ws2 : Str) (a z : Char) (t i : Str)
    (h1 : ∀ x ∈ ws1, isSpace x = true) (h2 : ∀ x ∈ ws2, isSpace x = true)
    (ha : isSpace a = false) (hz : isSpace z = false) (hcore : a :: t = i ++ [z]) :
    TrimSpace (ws1 ++ (a :: t) ++ ws2) = a :: t := by
  unfold TrimSpace
  rw [List.append_assoc, dropWhile_isSpace_append ws1 _ h1]
  have e1 : (a :: t ++ ws2).dropWhile isSpace = a :: t ++ ws2 := by
    simp [List.dropWhile_cons, ha]
  rw [e1, hcore, List.reverse_append,
    dropWhile_isSpace_append ws2.reverse _ (fun x hx => h2 x (List.mem_reverse.1 hx))]
  simp [List.dropWhile_cons, hz]

/-- The text made of white-space-free, non-empty tokens joined by single spaces
starts and ends with a character that is not white space. -/
theorem intercalate_ends (ls : List Str) (hne : ls ≠ [])
    (h : ∀ l ∈ ls, l ≠ [] ∧ ∀ x ∈ l, isSpace x = false) :
    (∃ a t, [' '].intercalate ls = a :: t ∧ isSpace a = false) ∧
    (∃ i z, [' '].intercalate ls = i ++ [z] ∧ isSpace z = false) := by
  induction ls with
  | nil => exact absurd rfl hne
  | cons l rest ih =>
    obtain ⟨hl, hls⟩ := h l (List.mem_cons_self _ _)
    cases rest with
    | nil =>
      have e : [' '].intercalate [l] = l := by simp [List.intercalate]
      rw [e]
      constructor
      · cases l with
        | nil => exact absurd rfl hl
        | cons a t => exact ⟨a, t, rfl, hls a (List.mem_cons_self _ _)⟩
      · refine ⟨l.dropLast, l.getLast hl, (List.dropLast_append_getLast hl).symm, ?_⟩
        exact hls _ (List.getLast_mem hl)
    | cons l2 rest2 =>
      have e : [' '].intercalate (l :: l2 :: rest2) =
          l ++ ' ' :: [' '].intercalate (l2 :: rest2) := by
        simp [List.intercalate]
      rw [e]
      obtain ⟨-, ⟨i, z, hi, hz⟩⟩ := ih (by simp)
        (fun x hx => h x (List.mem_cons_of_mem _ hx))
      constructor
      · cases l with
        | nil => exact absurd rfl hl
        | cons a t => exact ⟨a, _, rfl, hls a (List.mem_cons_self _ _)⟩
      · exact ⟨l ++ ' ' :: i, z, by rw [hi]; simp, hz⟩

/-! ## Lemmas on `Matches` and `IsAdmin` -/

/-- `Matches` on a requirement with the `re:` prefix. -/
theorem matches_regex (Compile : Compiler) (r s : Str) :
    Matches Compile ("re:".toList ++ r) s =
      match Compile r with
      | some regex => regex.MatchString s
      | none => false := by
  have h1 : HasPrefix ("re:".toList ++ r) "re:".toList = true :=
    (hasPrefix_iff _ _).2 (List.prefix_append _ _)
  have h2 : TrimPrefix ("re:".toList ++ r) "re:".toList = r := by
    unfold TrimPrefix; rw [if_pos h1]; rfl
  unfold Matches
  simp only [h1, h2, if_true]
  cases Compile r <;> simp

/-- `Matches` on a requirement without the `re:` prefix and without a leading or
trailing `*`. -/
theorem matches_exact (Compile : Compiler) (p s : Str)
    (hre : HasPrefix p "re:".toList = false) (h1 : HasPrefix p "*".toList = false)
    (h2 : HasSuffix p "*".toList = false) : Matches Compile p s = decide (s = p) := by
  unfold Matches
  simp only [hre, h1, h2, Bool.false_eq_true, if_false, Bool.or_self]
  by_cases h : s = p <;> simp [h]

/-- `Matches` on a requirement without the `re:` prefix. -/
theorem matches_glob (Compile : Compiler) (p s : Str)
    (hre : HasPrefix p "re:".toList = false) :
    Matches Compile p s =
      if HasPrefix p "*".toList && HasSuffix p "*".toList then
        Contains s (p.filter (fun x => x != '*'))
      else if HasPrefix p "*".toList then HasSuffix s (p.filter (fun x => x != '*'))
      else if HasSuffix p "*".toList then HasPrefix s (p.filter (fun x => x != '*'))
      else decide (s = p) := by
  have hr : Replace p "*".toList "".toList = p.filter (fun x => x != '*') :=
    replace_single '*' p
  unfold Matches
  simp only [hre, hr, Bool.false_eq_true, if_false]
  cases HasPrefix p "*".toList <;> cases HasSuffix p "*".toList <;> simp

/-- The loop of `IsAdmin`, started with `userIsAdmin = false`, ends with `true`
exactly when some pattern matches one of the three identity strings. -/
theorem isAdminLoop_iff (Compile : Compiler) (issuer fullIssuer host : Str) (admins : List Str) :
    isAdminLoop Compile issuer fullIssuer host admins false = true ↔
      ∃ p ∈ admins, Matches Compile p issuer = true ∨ Matches Compile p host = true ∨
        Matches Compile p fullIssuer = true := by
  induction admins with
  | nil => simp [isAdminLoop]
  | cons admin rest ih =>
    unfold isAdminLoop
    cases h1 : Matches Compile admin issuer <;> cases h2 : Matches Compile admin host <;>
      cases h3 : Matches Compile admin fullIssuer <;> simp [h1, h2, h3, ih]

/-! ## Lemmas on `ParseMessage` -/

/-- `ParseMessage` returns a record exactly when neither of its two indexing
operations panics, and the record is then the literal of the source. -/
theorem parseMessage_some_iff (Compile : Compiler) (admins : List Str) (c : Client) (e : Event)
    (m : NarwhalMessage) :
    ParseMessage Compile admins c e = some m ↔
      ∃ channel authenticated command params,
        parseAuth Compile admins c e (if e.Source.Name = [] then e.Source.Ident else e.Source.Name)
          (e.Source.Ident ++ "@".toList ++ e.Source.Host) = some (channel, authenticated) ∧
        parseCommand (TrimSpace e.Last) = some (command, params) ∧
        m = {
          Admin := IsAdmin Compile admins
            (if e.Source.Name = [] then e.Source.Ident else e.Source.Name)
            (e.Source.Ident ++ "@".toList ++ e.Source.Host) e.Source.Host && authenticated
          Authenticated := authenticated
          Channel := channel
          Command := command
          Host := e.Source.Host
          FullIssuer := e.Source.Ident ++ "@".toList ++ e.Source.Host
          Issuer := if e.Source.Name = [] then e.Source.Ident else e.Source.Name
          Message := e.Last
          MessageNoCmd := TrimSpace (TrimPrefix (TrimSpace e.Last) (".".toList ++ command))
          Params := params } := by
  unfold ParseMessage
  simp only []
  cases h1 : parseAuth Compile admins c e
      (if e.Source.Name = [] then e.Source.Ident else e.Source.Name)
      (e.Source.Ident ++ "@".toList ++ e.Source.Host) with
  | none => simp
  | some ca =>
    obtain ⟨channel, authenticated⟩ := ca
    cases h2 : parseCommand (TrimSpace e.Last) with
    | none => simp
    | some cp =>
      obtain ⟨command, params⟩ := cp
      simp only [Option.some.injEq, Prod.mk.injEq]
      constructor
      · intro h
        exact ⟨channel, authenticated, command, params, ⟨rfl, rfl⟩, ⟨rfl, rfl⟩, h.symm⟩
      · rintro ⟨ch, au, co, pa, ⟨rfl, rfl⟩, ⟨rfl, rfl⟩, h⟩
        exact h.symm

/-- The indexing `msgSplit[:1][0]` never panics: `Split` returns at least one piece. -/
theorem parseCommand_isSome (message : Str) : ∃ cp, parseCommand message = some cp := by
  unfold parseCommand
  simp only []
  split
  · cases h : Split message ' ' with
    | nil => exact absurd h (List.splitOnP_ne_nil _ _)
    | cons first rest =>
      simp only []
      split <;> exact ⟨_, rfl⟩
  · exact ⟨_, rfl⟩

/-- The indexing `e.Params[0]` does not panic on an event that has a parameter
whenever the transport reports it as a channel message. -/
theorem parseAuth_isSome (Compile : Compiler) (admins : List Str) (c : Client) (e : Event)
    (user fullIssuer : Str) (h : e.IsFromChannel = true → e.Params ≠ []) :
    ∃ ca, parseAuth Compile admins c e user fullIssuer = some ca := by
  unfold parseAuth
  cases c.LookupUser user with
  | none => exact ⟨_, rfl⟩
  | some clientUser =>
    simp only []
    cases hf : e.IsFromChannel with
    | false => exact ⟨_, rfl⟩
    | true =>
      simp only [if_true]
      cases hp : e.Params with
      | nil => exact absurd hp (h hf)
      | cons channel rest =>
        simp only []
        cases clientUser.Perms.Lookup channel <;> exact ⟨_, rfl⟩

theorem parseAuth_isSome_of_last (Compile : Compiler) (admins : List Str) (c : Client)
    (e : Event) (user fullIssuer : Str) (h : e.Last ≠ []) :
    ∃ ca, parseAuth Compile admins c e user fullIssuer = some ca := by
  apply parseAuth_isSome
  intro _ hp
  apply h
  unfold Event.Last
  rw [hp]
  rfl

/-- `TrimSpace` changes nothing in a text that is already trimmed. -/
theorem trimSpace_idem (s : Str) : TrimSpace (TrimSpace s) = TrimSpace s := by
  have hdef : ∀ t : Str, TrimSpace t = (t.dropWhile isSpace).rdropWhile isSpace := fun _ => rfl
  have hd : (TrimSpace s).dropWhile isSpace = TrimSpace s := by
    rw [hdef s]
    have hpre : (s.dropWhile isSpace).rdropWhile isSpace <+: s.dropWhile isSpace :=
      List.rdropWhile_prefix _ _
    cases ht : s.dropWhile isSpace with
    | nil => simp [List.rdropWhile_nil]
    | cons a t =>
      have ha : isSpace a = false := by
        have := List.head_dropWhile_not isSpace s (by rw [ht]; simp)
        simpa [ht] using this
      rw [ht] at hpre
      rcases List.prefix_cons_iff.1 hpre with h | ⟨r, h, -⟩
      · rw [h]; rfl
      · rw [h]
        exact List.dropWhile_cons_of_neg (by simp [ha])
  rw [hdef (TrimSpace s), hd, hdef s]
  exact List.rdropWhile_idempotent _ _

/-- The loop of the direct-message branch, started with `false`, ends with
`true` exactly when some pattern matches the full issuer. -/
theorem fullIssuerLoop_iff (Compile : Compiler) (fullIssuer : Str) (admins : List Str) :
    fullIssuerLoop Compile fullIssuer admins false = true ↔
      ∃ p ∈ admins, Matches Compile p fullIssuer = true := by
  induction admins with
  | nil => simp [fullIssuerLoop]
  | cons admin rest ih =>
    unfold fullIssuerLoop
    cases h : Matches Compile admin fullIssuer <;> simp [h, ih]

/-- `command` and `params` for a trimmed text that starts with `.`. -/
theorem parseCommand_dot (message : Str) (h : HasPrefix message ".".toList = true) :
    parseCommand message =
      some (Replace ((Split message ' ').headD []) ".".toList "".toList,
        (Split message ' ').tail) := by
  unfold parseCommand
  simp only [h, if_true]
  cases hs : Split message ' ' with
  | nil => exact absurd hs (List.splitOnP_ne_nil _ _)
  | cons first rest =>
    cases rest with
    | nil => simp
    | cons r rs => simp

/-- `command` and `params` for a trimmed text that does not start with `.`. -/
theorem parseCommand_plain (message : Str) (h : HasPrefix message ".".toList = false) :
    parseCommand message = some ([], []) := by
  unfold parseCommand
  simp only [h, Bool.false_eq_true, if_false]

/-- `ParseMessage` returns a record on every event that has a parameter
whenever the transport reports it as a channel message. -/
theorem parseMessage_isSome (Compile : Compiler) (admins : List Str) (c : Client) (e : Event)
    (h : e.IsFromChannel = true → e.Params ≠ []) :
    ∃ m, ParseMessage Compile admins c e = some m := by
  obtain ⟨⟨channel, authenticated⟩, h1⟩ := parseAuth_isSome Compile admins c e
    (if e.Source.Name = [] then e.Source.Ident else e.Source.Name)
    (e.Source.Ident ++ "@".toList ++ e.Source.Host) h
  obtain ⟨⟨command, params⟩, h2⟩ := parseCommand_isSome (TrimSpace e.Last)
  exact ⟨_, (parseMessage_some_iff Compile admins c e _).2
    ⟨channel, authenticated, command, params, h1, h2, rfl⟩⟩

/-- The command fields of a record returned by `ParseMessage`. -/
theorem parseMessage_command (Compile : Compiler) (admins : List Str) (c : Client) (e : Event)
    (m : NarwhalMessage) (hm : ParseMessage Compile admins c e = some m) :
    parseCommand (TrimSpace e.Last) = some (m.Command, m.Params) ∧
    m.MessageNoCmd = TrimSpace (TrimPrefix (TrimSpace e.Last) (".".toList ++ m.Command)) := by
  obtain ⟨channel, authenticated, command, params, -, h2, rfl⟩ :=
    (parseMessage_some_iff Compile admins c e m).1 hm
  exact ⟨h2, rfl⟩

/-- The authorization fields of the record returned by `ParseMessage`, from the
values of `channel` and `authenticated` after the user lookup. -/
theorem parseMessage_auth (Compile : Compiler) (admins : List Str) (c : Client) (e : Event)
    (channel : Str) (authenticated : Bool)
    (h : parseAuth Compile admins c e
      (if e.Source.Name = [] then e.Source.Ident else e.Source.Name)
      (e.Source.Ident ++ "@".toList ++ e.Source.Host) = some (channel, authenticated)) :
    ∃ m, ParseMessage Compile admins c e = some m ∧ m.Channel = channel ∧
      m.Authenticated = authenticated ∧
      m.Admin = (IsAdmin Compile admins
        (if e.Source.Name = [] then e.Source.Ident else e.Source.Name)
        (e.Source.Ident ++ "@".toList ++ e.Source.Host) e.Source.Host && authenticated) := by
  obtain ⟨⟨command, params⟩, h2⟩ := parseCommand_isSome (TrimSpace e.Last)
  exact ⟨_, (parseMessage_some_iff Compile admins c e _).2
    ⟨channel, authenticated, command, params, h, h2, rfl⟩, rfl, rfl, rfl⟩

theorem parseAuth_unknown (Compile : Compiler) (admins : List Str) (c : Client) (e : Event)
    (user fullIssuer : Str) (h : c.LookupUser user = none) :
    parseAuth Compile admins c e user fullIssuer = some ([], false) := by
  unfold parseAuth
  rw [h]

theorem parseAuth_direct (Compile : Compiler) (admins : List Str) (c : Client) (e : Event)
    (user fullIssuer : Str) (u : User) (h : c.LookupUser user = some u)
    (hdm : e.IsFromChannel = false) :
    parseAuth Compile admins c e user fullIssuer =
      some ([], fullIssuerLoop Compile fullIssuer admins false) := by
  unfold parseAuth
  rw [h]
  simp [hdm]

theorem parseAuth_channel (Compile : Compiler) (admins : List Str) (c : Client) (e : Event)
    (user fullIssuer : Str) (u : User) (channel : Str) (rest : List Str)
    (h : c.LookupUser user = some u) (hch : e.IsFromChannel = true)
    (hp : e.Params = channel :: rest) :
    parseAuth Compile admins c e user fullIssuer =
      some (channel, match u.Perms.Lookup channel with
        | some channelPerms => channelPerms.IsTrusted
        | none => false) := by
  unfold parseAuth
  rw [h]
  simp only [hch, if_true, hp]
  cases u.Perms.Lookup channel <;> rfl

/-! ## Lemmas on the list utilities -/

theorem mapHas_mapSet (m : StringBoolMap) (key k : Str) (v : Bool) :
    mapHas (mapSet m key v) k = true ↔ k = key ∨ mapHas m k = true := by
  unfold mapHas mapSet
  by_cases h : k = key <;> simp [h]

/-- Invariant of the loop of `DeduplicateList`: when the map holds exactly the
strings of `newList` and `newList` has no duplicates, the result has no
duplicates and holds the strings of `newList` and of the entries read. -/
theorem deduplicateLoop_spec (list : List Str) :
    ∀ (m : StringBoolMap) (acc : List Str), (∀ x, mapHas m x = true ↔ x ∈ acc) → acc.Nodup →
      (deduplicateLoop list m acc).Nodup ∧
      ∀ x, x ∈ deduplicateLoop list m acc ↔ x ∈ acc ∨ x ∈ list := by
  induction list with
  | nil => intro m acc _ hnd; simp [deduplicateLoop, hnd]
  | cons entry rest ih =>
    intro m acc hm hnd
    unfold deduplicateLoop
    cases he : mapHas m entry with
    | true =>
      have hin : entry ∈ acc := (hm entry).1 he
      obtain ⟨h1, h2⟩ := ih m acc hm hnd
      refine ⟨by simpa using h1, fun x => ?_⟩
      simp only [Bool.not_true, Bool.false_eq_true, if_false, h2 x, List.mem_cons]
      constructor
      · rintro (h | h)
        · exact Or.inl h
        · exact Or.inr (Or.inr h)
      · rintro (h | h | h)
        · exact Or.inl h
        · exact Or.inl (h ▸ hin)
        · exact Or.inr h
    | false =>
      have hnin : entry ∉ acc := fun h => by
        have := (hm entry).2 h
        rw [he] at this
        exact Bool.noConfusion this
      have hm2 : ∀ x, mapHas (mapSet m entry true) x = true ↔ x ∈ acc ++ [entry] := by
        intro x
        rw [mapHas_mapSet, hm x]
        simp only [List.mem_append, List.mem_singleton]
        exact Or.comm
      have hnd2 : (acc ++ [entry]).Nodup := by
        rw [List.nodup_append]
        refine ⟨hnd, List.nodup_singleton _, ?_⟩
        intro x hx hx2
        rw [List.mem_singleton] at hx2
        exact hnin (hx2 ▸ hx)
      obtain ⟨h1, h2⟩ := ih _ _ hm2 hnd2
      refine ⟨by simpa using h1, fun x => ?_⟩
      simp only [Bool.not_false, if_true, h2 x, List.mem_append, List.mem_cons,
        List.mem_nil_iff, or_false]
      exact or_assoc

/-- The loop of `DeduplicateList` appends a list without duplicates, none of
whose strings is in the map, as it stands. -/
theorem deduplicateLoop_nodup (list : List Str) :
    ∀ (m : StringBoolMap) (acc : List Str), (∀ x ∈ list, mapHas m x = false) → list.Nodup →
      deduplicateLoop list m acc = acc ++ list := by
  induction list with
  | nil => intro m acc _ _; simp [deduplicateLoop]
  | cons entry rest ih =>
    intro m acc hm hnd
    unfold deduplicateLoop
    have he : mapHas m entry = false := hm entry (List.mem_cons_self _ _)
    obtain ⟨hnotin, hnd2⟩ := List.nodup_cons.1 hnd
    simp only [he, Bool.not_false, if_true]
    rw [ih _ _ _ hnd2, List.append_assoc]
    · rfl
    · intro x hx
      cases h : mapHas (mapSet m entry true) x with
      | false => rfl
      | true =>
        rcases (mapHas_mapSet m entry x true).1 h with h2 | h2
        · exact absurd (h2 ▸ hx) hnotin
        · rw [hm x (List.mem_cons_of_mem _ hx)] at h2
          exact Bool.noConfusion h2

theorem removeInnerLoop_spec (item : Str) (items : List Str) :
    ∀ (m : StringBoolMap) (k : Str),
      mapHas (removeInnerLoop item items m) k = true ↔
        (k = item ∧ item ∈ items) ∨ mapHas m k = true := by
  induction items with
  | nil => intro m k; simp [removeInnerLoop]
  | cons itemToRemove rest ih =>
    intro m k
    unfold removeInnerLoop
    by_cases h : itemToRemove = item
    · subst h
      simp only [if_true, mapHas_mapSet, List.mem_cons, true_or, and_true]
    · simp only [h, if_false, ih m k, List.mem_cons]
      have h2 : ¬ item = itemToRemove := fun e => h e.symm
      simp [h2]

/-- Invariant of the outer loop of `RemoveFromStringArr`: when the map holds
only strings of `items`, the loop appends to `newList` the strings of the list
that are not in `items`, in their order. -/
theorem removeLoop_spec (items list : List Str) :
    ∀ (m : StringBoolMap) (acc : List Str), (∀ k, mapHas m k = true → k ∈ items) →
      removeLoop items list m acc = acc ++ list.filter (fun x => decide (x ∉ items)) := by
  induction list with
  | nil => intro m acc _; simp [removeLoop]
  | cons item rest ih =>
    intro m acc hm
    unfold removeLoop
    have hm2 : ∀ k, mapHas (removeInnerLoop item items m) k = true → k ∈ items := by
      intro k hk
      rcases (removeInnerLoop_spec item items m k).1 hk with ⟨rfl, h⟩ | h
      · exact h
      · exact hm k h
    simp only []
    by_cases hin : item ∈ items
    · have : mapHas (removeInnerLoop item items m) item = true :=
        (removeInnerLoop_spec item items m item).2 (Or.inl ⟨rfl, hin⟩)
      simp only [this, Bool.not_true, Bool.false_eq_true, if_false]
      rw [ih _ _ hm2]
      simp [List.filter_cons, hin]
    · have : mapHas (removeInnerLoop item items m) item = false := by
        cases h : mapHas (removeInnerLoop item items m) item with
        | false => rfl
        | true => exact absurd (hm2 item h) hin
      simp only [this, Bool.not_false, if_true]
      rw [ih _ _ hm2]
      simp [List.filter_cons, hin]

/-! ## The claims -/

/-- Claim C1: `IsAdmin` returns true exactly when some pattern of the admin list
matches the issuer, the host or the full issuer; in particular a pattern of the
list that matches the host, and neither the issuer nor the full issuer, already
makes it return true. -/
theorem C1_IsAdmin_iff_some_pattern_matches (Compile : Compiler) (admins : List Str)
    (issuer fullIssuer host : Str) :
    (IsAdmin Compile admins issuer fullIssuer host = true ↔
      ∃ p ∈ admins, Matches Compile p issuer = true ∨ Matches Compile p host = true ∨
        Matches Compile p fullIssuer = true) ∧
    (∀ p ∈ admins, Matches Compile p host = true → Matches Compile p issuer = false →
      Matches Compile p fullIssuer = false →
      IsAdmin Compile admins issuer fullIssuer host = true) := by
  have h := isAdminLoop_iff Compile issuer fullIssuer host admins
  refine ⟨h, ?_⟩
  intro p hp hh _ _
  exact h.2 ⟨p, hp, Or.inr (Or.inl hh)⟩

/-- Claim C1 at the admin list `["example.org"]` and the identity
`bob`, `bob@example.org`, `example.org`: only the host matches. -/
theorem C1_witness :
    Matches regexpCompile "example.org".toList "example.org".toList = true ∧
    Matches regexpCompile "example.org".toList "bob".toList = false ∧
    Matches regexpCompile "example.org".toList "bob@example.org".toList = false ∧
    IsAdmin regexpCompile ["example.org".toList] "bob".toList "bob@example.org".toList
      "example.org".toList = true :=
  ⟨by decide, by decide, by decide,
    (C1_IsAdmin_iff_some_pattern_matches regexpCompile ["example.org".toList] "bob".toList
      "bob@example.org".toList "example.org".toList).2 "example.org".toList
      (by simp) (by decide) (by decide) (by decide)⟩

/-- Claim C2: every record returned by `ParseMessage` has
`Admin = (IsAdmin(issuer, fullIssuer, host) AND Authenticated)`, hence
`Admin ⇒ Authenticated`, where issuer, full issuer and host are those of the
sender; and `ParseMessage` does return a record on every event that has a
parameter whenever the transport reports it as a channel message. -/
theorem C2_ParseMessage_admin_implies_authenticated (Compile : Compiler) (admins : List Str)
    (c : Client) (e : Event) :
    (∀ m, ParseMessage Compile admins c e = some m →
      m.Admin = (IsAdmin Compile admins m.Issuer m.FullIssuer m.Host && m.Authenticated) ∧
      (m.Admin = true → m.Authenticated = true) ∧
      m.Issuer = (if e.Source.Name = [] then e.Source.Ident else e.Source.Name) ∧
      m.FullIssuer = e.Source.Ident ++ "@".toList ++ e.Source.Host ∧
      m.Host = e.Source.Host) ∧
    ((e.IsFromChannel = true → e.Params ≠ []) →
      ∃ m, ParseMessage Compile admins c e = some m) := by
  constructor
  · intro m hm
    obtain ⟨channel, authenticated, command, params, -, -, rfl⟩ :=
      (parseMessage_some_iff Compile admins c e m).1 hm
    refine ⟨rfl, ?_, rfl, rfl, rfl⟩
    simp only [Bool.and_eq_true]
    exact fun h => h.2
  · intro h
    obtain ⟨⟨channel, authenticated⟩, h1⟩ := parseAuth_isSome Compile admins c e
      (if e.Source.Name = [] then e.Source.Ident else e.Source.Name)
      (e.Source.Ident ++ "@".toList ++ e.Source.Host) h
    obtain ⟨⟨command, params⟩, h2⟩ := parseCommand_isSome (TrimSpace e.Last)
    exact ⟨_, (parseMessage_some_iff Compile admins c e _).2
      ⟨channel, authenticated, command, params, h1, h2, rfl⟩⟩

/-- Claim C2 at the channel message `.kick bob` of `alice`, with the admin list
`["alice"]` and a client that trusts her: a record is returned, and both flags
are set in it. -/
theorem C2_witness :
    (∃ m, ParseMessage regexpCompile ["alice".toList] trustingClient
      (channelMessage ".kick bob".toList) = some m) ∧
    (ParseMessage regexpCompile ["alice".toList] trustingClient
      (channelMessage ".kick bob".toList)).map (fun m => (m.Admin, m.Authenticated)) =
      some (true, true) :=
  ⟨(C2_ParseMessage_admin_implies_authenticated regexpCompile ["alice".toList] trustingClient
      (channelMessage ".kick bob".toList)).2 (fun _ => by decide), by decide⟩

/-- Claim C3: for a pattern `p` that contains no `*` and does not start with
`re:`, `Matches(p, s)` is true exactly when `s = p`; the comparison is
case-sensitive, `Matches("exact", "Exact")` being false. -/
theorem C3_Matches_exact_iff_eq (Compile : Compiler) (p s : Str)
    (hstar : '*' ∉ p) (hre : ¬ "re:".toList <+: p) :
    (Matches Compile p s = true ↔ s = p) ∧
      Matches Compile "exact".toList "Exact".toList = false := by
  have h1 : HasPrefix p "*".toList = false :=
    hasPrefix_eq_false _ _ (fun h => hstar (h.subset (by simp)))
  have h2 : HasSuffix p "*".toList = false :=
    hasSuffix_eq_false _ _ (fun h => hstar (h.subset (by simp)))
  refine ⟨?_, ?_⟩
  · rw [matches_exact Compile p s (hasPrefix_eq_false _ _ hre) h1 h2]
    simp
  · rw [matches_exact Compile _ _ (by decide) (by decide) (by decide)]
    decide

/-- Claim C3 at the pattern `exact` and the candidate `exact`. -/
theorem C3_witness :
    '*' ∉ "exact".toList ∧ ¬ "re:".toList <+: "exact".toList ∧
    (Matches regexpCompile "exact".toList "exact".toList = true ↔
      "exact".toList = "exact".toList) :=
  ⟨by decide, by decide,
    (C3_Matches_exact_iff_eq regexpCompile "exact".toList "exact".toList
      (by decide) (by decide)).1⟩

/-- Claim C4: for a pattern `p` that does not start with `re:`, with `core` the
pattern without its `*` characters: if `p` starts and ends with `*`,
`Matches(p, s)` is true exactly when `s` contains `core`; if `p` starts with `*`
and does not end with it, exactly when `s` ends with `core`; if `p` ends with `*`
and does not start with it, exactly when `s` starts with `core`. -/
theorem C4_Matches_glob_modes (Compile : Compiler) (p s : Str)
    (hre : ¬ "re:".toList <+: p) :
    ("*".toList <+: p → "*".toList <:+ p →
      (Matches Compile p s = true ↔ p.filter (fun c => c != '*') <:+: s)) ∧
    ("*".toList <+: p → ¬ "*".toList <:+ p →
      (Matches Compile p s = true ↔ p.filter (fun c => c != '*') <:+ s)) ∧
    (¬ "*".toList <+: p → "*".toList <:+ p →
      (Matches Compile p s = true ↔ p.filter (fun c => c != '*') <+: s)) := by
  have hm := matches_glob Compile p s (hasPrefix_eq_false _ _ hre)
  refine ⟨fun h1 h2 => ?_, fun h1 h2 => ?_, fun h1 h2 => ?_⟩
  · rw [hm, (hasPrefix_iff _ _).2 h1, (hasSuffix_iff _ _).2 h2]
    simp only [Bool.and_self, if_true]
    exact contains_iff _ _
  · rw [hm, (hasPrefix_iff _ _).2 h1, hasSuffix_eq_false _ _ h2]
    simp only [Bool.and_false, Bool.false_eq_true, if_false, if_true]
    exact hasSuffix_iff _ _
  · rw [hm, hasPrefix_eq_false _ _ h1, (hasSuffix_iff _ _).2 h2]
    simp only [Bool.false_and, Bool.false_eq_true, if_false, if_true]
    exact hasPrefix_iff _ _

/-- Claim C4 at the pattern `*suffix` and the candidate `hello suffix`, which
ends with `suffix`. -/
theorem C4_witness :
    (¬ "re:".toList <+: "*suffix".toList) ∧
    "*".toList <+: "*suffix".toList ∧ ¬ "*".toList <:+ "*suffix".toList ∧
    "suffix".toList <:+ "hello suffix".toList ∧
    Matches regexpCompile "*suffix".toList "hello suffix".toList = true :=
  ⟨by decide, by decide, by decide, by decide,
    ((C4_Matches_glob_modes regexpCompile "*suffix".toList "hello suffix".toList
      (by decide)).2.1 (by decide) (by decide)).2 (by decide)⟩

/-- Claim C5 fails at the candidate `abc`: it contains `abc`, and
`Matches("a*b*c", "abc")` is false. -/
theorem C5_counterexample :
    "abc".toList <:+: "abc".toList ∧
      Matches regexpCompile "a*b*c".toList "abc".toList = false := by
  decide

/-- Claim C5, amended: the pattern `a*b*c`, which neither starts nor ends with
`*`, is an exact pattern, matched by the candidate `a*b*c` only; the removal of
every asterisk applies to a pattern that starts or ends with `*`, so that
`*a*b*c*` is matched exactly by the candidates that contain `abc`. -/
theorem C5_interior_asterisks_exact (Compile : Compiler) (s : Str) :
    (Matches Compile "a*b*c".toList s = true ↔ s = "a*b*c".toList) ∧
    (Matches Compile "*a*b*c*".toList s = true ↔ "abc".toList <:+: s) := by
  constructor
  · rw [matches_exact Compile _ s (by decide) (by decide) (by decide)]
    simp
  · rw [matches_glob Compile _ s (by decide)]
    have h1 : HasPrefix "*a*b*c*".toList "*".toList = true := by decide
    have h2 : HasSuffix "*a*b*c*".toList "*".toList = true := by decide
    have h3 : "*a*b*c*".toList.filter (fun x => x != '*') = "abc".toList := by decide
    rw [h1, h2, h3]
    simp only [Bool.and_self, if_true]
    exact contains_iff _ _

/-- Claim C6: when the expression `r` does not compile, `Matches("re:" + r, s)`
is false for every candidate `s`; `Matches` is a total function, so nothing but
this value reaches the caller. -/
theorem C6_invalid_regex_never_matches (Compile : Compiler) (r s : Str)
    (h : Compile r = none) : Matches Compile ("re:".toList ++ r) s = false := by
  rw [matches_regex, h]

/-- Claim C6 at the pattern `re:(invalid`, whose expression has an unclosed
parenthesis, and the candidate `anything`. -/
theorem C6_witness :
    regexpCompile "(invalid".toList = none ∧
      Matches regexpCompile ("re:".toList ++ "(invalid".toList) "anything".toList = false :=
  ⟨rfl, C6_invalid_regex_never_matches regexpCompile "(invalid".toList "anything".toList rfl⟩

/-- Claim C7: when the expression `r` compiles, `Matches("re:" + r, s)` is the
result of the compiled expression's search in `s`, whatever `r` ends with (so
also when the pattern ends with `*`); `Matches("re:^a.*z$", "abz")` is true and
`Matches("re:^a.*z$", "xabz")` is false. -/
theorem C7_regex_mode_takes_precedence (Compile : Compiler) (r s : Str) (regex : Regexp)
    (h : Compile r = some regex) :
    Matches Compile ("re:".toList ++ r) s = regex.MatchString s ∧
    Matches regexpCompile "re:^a.*z$".toList "abz".toList = true ∧
    Matches regexpCompile "re:^a.*z$".toList "xabz".toList = false := by
  refine ⟨?_, by decide, by decide⟩
  rw [matches_regex, h]

/-- Claim C7 at the pattern `re:ab*`, which ends with `*`, and the candidate
`xa`: the expression `ab*` is found in `xa`, which does not start with `re:ab`
as the glob reading of the pattern would ask. -/
theorem C7_witness :
    regexpCompile "ab*".toList =
      some ⟨(Re.cat (Re.lit 'a') (Re.cat (Re.star (Re.lit 'b')) Re.empty)).search⟩ ∧
    Matches regexpCompile ("re:".toList ++ "ab*".toList) "xa".toList = true ∧
    HasPrefix "xa".toList "re:ab".toList = false :=
  ⟨rfl,
    ((C7_regex_mode_takes_precedence regexpCompile "ab*".toList "xa".toList
      ⟨(Re.cat (Re.lit 'a') (Re.cat (Re.star (Re.lit 'b')) Re.empty)).search⟩ rfl).1).trans
      (by decide),
    by decide⟩

/-- Claim C8: with an empty admin list `IsAdmin` returns false for every issuer,
full issuer and host. -/
theorem C8_IsAdmin_empty_list (Compile : Compiler) (issuer fullIssuer host : Str) :
    IsAdmin Compile [] issuer fullIssuer host = false := rfl

/-- Claim C9: for a command name `n` without `.` and without white space and a
non-empty list of non-empty, white-space-free tokens, `ParseMessage` on the text
`"." + n + " " + a1 + " " + ... + " " + ak`, with or without white space around
it, returns a record with `Command = n`, `Params = [a1, ..., ak]` and
`MessageNoCmd = a1 + " " + ... + " " + ak`. -/
theorem C9_command_and_params_roundtrip (Compile : Compiler) (admins : List Str) (c : Client)
    (e : Event) (n : Str) (args : List Str) (ws1 ws2 : Str)
    (hdot : '.' ∉ n) (hnsp : ∀ x ∈ n, isSpace x = false)
    (hargs : args ≠ []) (harg : ∀ a ∈ args, a ≠ [] ∧ ∀ x ∈ a, isSpace x = false)
    (hws1 : ∀ x ∈ ws1, isSpace x = true) (hws2 : ∀ x ∈ ws2, isSpace x = true)
    (htext : e.Last =
      ws1 ++ (".".toList ++ n ++ " ".toList ++ " ".toList.intercalate args) ++ ws2) :
    ∃ m, ParseMessage Compile admins c e = some m ∧ m.Command = n ∧ m.Params = args ∧
      m.MessageNoCmd = " ".toList.intercalate args := by
  have hsp : isSpace ' ' = true := by decide
  have hdotsp : isSpace '.' = false := by decide
  have htok : ∀ l ∈ ('.' :: n) :: args, l ≠ [] ∧ ∀ x ∈ l, isSpace x = false := by
    intro l hl
    rcases List.mem_cons.1 hl with rfl | hl
    · refine ⟨by simp, fun x hx => ?_⟩
      rcases List.mem_cons.1 hx with rfl | hx
      · exact hdotsp
      · exact hnsp x hx
    · exact harg l hl
  have hcore : ".".toList ++ n ++ " ".toList ++ " ".toList.intercalate args =
      [' '].intercalate (('.' :: n) :: args) := by
    cases args with
    | nil => exact absurd rfl hargs
    | cons a rest => simp [List.intercalate]
  obtain ⟨⟨a, t, hat, ha⟩, ⟨i, z, hiz, hz⟩⟩ := intercalate_ends _ (by simp) htok
  have hmsg : TrimSpace e.Last = [' '].intercalate (('.' :: n) :: args) := by
    rw [htext, hcore, hat]
    exact trimSpace_surrounded ws1 ws2 a z t i hws1 hws2 ha hz (hat ▸ hiz)
  have hsplit : Split ([' '].intercalate (('.' :: n) :: args)) ' ' = ('.' :: n) :: args := by
    unfold Split
    refine List.splitOn_intercalate _ ' ' (fun l hl hmem => ?_) (by simp)
    have := (htok l hl).2 ' ' hmem
    rw [hsp] at this
    exact Bool.noConfusion this
  have hpre : HasPrefix ([' '].intercalate (('.' :: n) :: args)) ".".toList = true := by
    rw [← hcore]; simp [HasPrefix, List.isPrefixOf]
  have hcmd : Replace ('.' :: n) ".".toList "".toList = n := by
    have := replace_single '.' ('.' :: n)
    rw [show ".".toList = ['.'] from rfl, show "".toList = [] from rfl, this]
    simp only [List.filter_cons, bne_self_eq_false, Bool.false_eq_true, if_false]
    rw [List.filter_eq_self]
    intro x hx
    simp only [bne_iff_ne, ne_eq]
    rintro rfl
    exact hdot hx
  have hpc : parseCommand ([' '].intercalate (('.' :: n) :: args)) = some (n, args) := by
    unfold parseCommand
    simp only [hsplit, hpre, if_true, hcmd, List.length_cons]
    have : args.length + 1 > 1 := by
      have := List.length_pos.2 hargs
      omega
    simp [this]
  have hlast : e.Last ≠ [] := by
    rw [htext]; simp
  obtain ⟨⟨channel, authenticated⟩, hauth⟩ := parseAuth_isSome_of_last Compile admins c e
    (if e.Source.Name = [] then e.Source.Ident else e.Source.Name)
    (e.Source.Ident ++ "@".toList ++ e.Source.Host) hlast
  refine ⟨_, (parseMessage_some_iff Compile admins c e _).2
    ⟨channel, authenticated, n, args, hauth, hmsg ▸ hpc, rfl⟩, rfl, rfl, ?_⟩
  show TrimSpace (TrimPrefix (TrimSpace e.Last) (".".toList ++ n)) = _
  rw [hmsg, ← hcore]
  have htp : TrimPrefix (".".toList ++ n ++ " ".toList ++ " ".toList.intercalate args)
      (".".toList ++ n) = ' ' :: [' '].intercalate args := by
    unfold TrimPrefix
    have hp : HasPrefix (".".toList ++ n ++ " ".toList ++ " ".toList.intercalate args)
        (".".toList ++ n) = true := by
      apply (hasPrefix_iff _ _).2
      rw [List.append_assoc]
      exact List.prefix_append _ _
    rw [if_pos hp, List.append_assoc, List.drop_left]
    rfl
  rw [htp]
  obtain ⟨⟨a2, t2, hat2, ha2⟩, ⟨i2, z2, hiz2, hz2⟩⟩ := intercalate_ends args hargs harg
  have := trimSpace_surrounded [' '] [] a2 z2 t2 i2 (by simp [hsp]) (by simp) ha2 hz2
    (hat2 ▸ hiz2)
  rw [show " ".toList = [' '] from rfl, hat2]
  simpa using this

/-- Claim C9 at the direct message `.kick alice`: the command is `kick`, the
parameters are `["alice"]` and the message without command is `alice`. -/
theorem C9_witness :
    ∃ m, ParseMessage regexpCompile [] trustingClient (directMessage ".kick alice".toList) =
        some m ∧
      m.Command = "kick".toList ∧ m.Params = ["alice".toList] ∧
      m.MessageNoCmd = "alice".toList :=
  C9_command_and_params_roundtrip regexpCompile [] trustingClient
    (directMessage ".kick alice".toList) "kick".toList ["alice".toList] [] []
    (by decide) (by decide) (by decide) (by decide) (by decide) (by decide) rfl

/-- Claim C10 at the direct message `.kick.now alice`: the first token of the
text is `.kick.now`, which is `kick.now` without its leading `.`, and the
command returned by `ParseMessage` is `kicknow`, every `.` of the token being
removed; the message without command is then the whole text, from which the
prefix `.kicknow` cannot be removed. -/
theorem C10_command_loses_every_dot :
    (Split (TrimSpace (directMessage ".kick.now alice".toList).Last) ' ').head? =
      some ".kick.now".toList ∧
    (ParseMessage regexpCompile [] trustingClient
      (directMessage ".kick.now alice".toList)).map (fun m => (m.Command, m.MessageNoCmd)) =
      some ("kicknow".toList, ".kick.now alice".toList) := by
  decide

/-- Claim C11 at the direct message `.op.add bob`: the trimmed text without its
first token `.op.add`, trimmed again, is `bob`; the command returned by
`ParseMessage` is `opadd`, `.opadd` does not start the text, and the message
without command is the whole text `.op.add bob`. -/
theorem C11_command_token_not_removed :
    (Split (TrimSpace (directMessage ".op.add bob".toList).Last) ' ').head? =
      some ".op.add".toList ∧
    TrimSpace ((TrimSpace (directMessage ".op.add bob".toList).Last).drop
      ".op.add".toList.length) = "bob".toList ∧
    (ParseMessage regexpCompile [] trustingClient
      (directMessage ".op.add bob".toList)).map (fun m => (m.Command, m.MessageNoCmd)) =
      some ("opadd".toList, ".op.add bob".toList) := by
  decide

/-- Claim C12: when the trimmed text does not start with `.`, every record
returned by `ParseMessage` has an empty command, no parameter and the trimmed
text as message without command; and a record is returned on every event that
has a parameter whenever the transport reports it as a channel message. -/
theorem C12_text_without_prefix_has_no_command (Compile : Compiler) (admins : List Str) (c : Client)
    (e : Event) (hdot : ¬ ".".toList <+: TrimSpace e.Last) :
    (∀ m, ParseMessage Compile admins c e = some m →
      m.Command = [] ∧ m.Params = [] ∧ m.MessageNoCmd = TrimSpace e.Last) ∧
    ((e.IsFromChannel = true → e.Params ≠ []) →
      ∃ m, ParseMessage Compile admins c e = some m) := by
  refine ⟨fun m hm => ?_, parseMessage_isSome Compile admins c e⟩
  have hpre : HasPrefix (TrimSpace e.Last) ".".toList = false := hasPrefix_eq_false _ _ hdot
  obtain ⟨h1, h2⟩ := parseMessage_command Compile admins c e m hm
  rw [parseCommand_plain _ hpre] at h1
  simp only [Option.some.injEq, Prod.mk.injEq] at h1
  obtain ⟨hc, hp⟩ := h1
  refine ⟨hc.symm, hp.symm, ?_⟩
  rw [h2, ← hc]
  have : TrimPrefix (TrimSpace e.Last) (".".toList ++ []) = TrimSpace e.Last := by
    unfold TrimPrefix
    rw [List.append_nil, hpre]
    rfl
  rw [this, trimSpace_idem]

/-- Claim C12 at the direct message `hello world`. -/
theorem C12_witness :
    (¬ ".".toList <+: TrimSpace (directMessage "hello world".toList).Last) ∧
    ∃ m, ParseMessage regexpCompile [] trustingClient (directMessage "hello world".toList) =
        some m ∧
      m.Command = "".toList ∧ m.Params = [] ∧ m.MessageNoCmd = "hello world".toList :=
  ⟨by decide,
    ⟨_, rfl, (C12_text_without_prefix_has_no_command regexpCompile [] trustingClient
      (directMessage "hello world".toList) (by decide)).1 _ rfl⟩⟩

/-- Claim C13: when the trimmed text starts with `.`, the parameters of every
record returned by `ParseMessage` are the pieces after the first one of the
trimmed text split at each single space, empty pieces included, and there is no
parameter when the trimmed text has no space; a record is returned on every
event that has a parameter whenever the transport reports it as a channel
message; `.kick  alice`, with two spaces, gives the parameters `["", "alice"]`. -/
theorem C13_params_are_the_remaining_pieces (Compile : Compiler) (admins : List Str)
    (c : Client) (e : Event) (hdot : ".".toList <+: TrimSpace e.Last) :
    (∀ m, ParseMessage Compile admins c e = some m →
      m.Params = ((TrimSpace e.Last).splitOn ' ').tail ∧
      (' ' ∉ TrimSpace e.Last → m.Params = [])) ∧
    ((e.IsFromChannel = true → e.Params ≠ []) →
      ∃ m, ParseMessage Compile admins c e = some m) ∧
    (ParseMessage regexpCompile [] trustingClient
      (directMessage ".kick  alice".toList)).map (fun m => m.Params) =
      some ["".toList, "alice".toList] := by
  refine ⟨fun m hm => ?_, parseMessage_isSome Compile admins c e, by decide⟩
  have hpre : HasPrefix (TrimSpace e.Last) ".".toList = true := (hasPrefix_iff _ _).2 hdot
  obtain ⟨h1, -⟩ := parseMessage_command Compile admins c e m hm
  rw [parseCommand_dot _ hpre] at h1
  simp only [Option.some.injEq, Prod.mk.injEq] at h1
  have hp : m.Params = ((TrimSpace e.Last).splitOn ' ').tail := h1.2.symm
  refine ⟨hp, fun hsp => ?_⟩
  rw [hp]
  have : (TrimSpace e.Last).splitOn ' ' = [TrimSpace e.Last] := by
    unfold List.splitOn
    apply List.splitOnP_eq_single
    intro x hx hxe
    simp only [beq_iff_eq] at hxe
    exact hsp (hxe ▸ hx)
  rw [this]
  rfl

/-- Claim C13 at the direct message `.help`, which has no space. -/
theorem C13_witness :
    ".".toList <+: TrimSpace (directMessage ".help".toList).Last ∧
    ' ' ∉ TrimSpace (directMessage ".help".toList).Last ∧
    ∃ m, ParseMessage regexpCompile [] trustingClient (directMessage ".help".toList) =
        some m ∧ m.Params = [] :=
  ⟨by decide, by decide,
    ⟨_, rfl, ((C13_params_are_the_remaining_pieces regexpCompile [] trustingClient
      (directMessage ".help".toList) (by decide)).1 _ rfl).2 (by decide)⟩⟩

/-- Claim C14: when the lookup of the sender returns nothing, `ParseMessage`
returns a record, with `Authenticated = false` and `Admin = false`, for a
channel message and a direct message alike and whatever the admin list. -/
theorem C14_unknown_sender_is_unauthenticated (Compile : Compiler) (admins : List Str)
    (c : Client) (e : Event)
    (hunknown : c.LookupUser (if e.Source.Name = [] then e.Source.Ident else e.Source.Name) =
      none) :
    ∃ m, ParseMessage Compile admins c e = some m ∧ m.Authenticated = false ∧
      m.Admin = false := by
  obtain ⟨m, hm, -, ha, hadm⟩ := parseMessage_auth Compile admins c e [] false
    (parseAuth_unknown Compile admins c e _ _ hunknown)
  exact ⟨m, hm, ha, by rw [hadm, Bool.and_false]⟩

/-- Claim C14 at the channel message `.kick bob` of `alice`, with the admin list
`["alice"]` and a client that knows no user. -/
theorem C14_witness :
    ∃ m, ParseMessage regexpCompile ["alice".toList] strangerClient
        (channelMessage ".kick bob".toList) = some m ∧
      m.Authenticated = false ∧ m.Admin = false :=
  C14_unknown_sender_is_unauthenticated regexpCompile ["alice".toList] strangerClient
    (channelMessage ".kick bob".toList) rfl

/-- Claim C15 fails at the direct message `hello` of `alice`, with the admin list
`["al@example.org"]` and a client that knows no user: the pattern matches her
full issuer `al@example.org`, and `Authenticated` is false. -/
theorem C15_counterexample :
    (directMessage "hello".toList).IsFromChannel = false ∧
    Matches regexpCompile "al@example.org".toList "al@example.org".toList = true ∧
    (ParseMessage regexpCompile ["al@example.org".toList] strangerClient
      (directMessage "hello".toList)).map (fun m => (m.FullIssuer, m.Authenticated)) =
      some ("al@example.org".toList, false) := by
  decide

/-- Claim C15, amended: for a direct message from a sender that the lookup
knows, `Authenticated` is true exactly when the full issuer `ident@host` matches
some pattern of the admin list, whatever the user returned by the lookup holds;
for a direct message from a sender that the lookup does not know,
`Authenticated` is false. -/
theorem C15_direct_message_authenticated_iff (Compile : Compiler) (admins : List Str)
    (c : Client) (e : Event) (hdm : e.IsFromChannel = false) :
    (∀ u, c.LookupUser (if e.Source.Name = [] then e.Source.Ident else e.Source.Name) =
        some u →
      ∃ m, ParseMessage Compile admins c e = some m ∧
        (m.Authenticated = true ↔
          ∃ p ∈ admins, Matches Compile p (e.Source.Ident ++ "@".toList ++ e.Source.Host) =
            true)) ∧
    (c.LookupUser (if e.Source.Name = [] then e.Source.Ident else e.Source.Name) = none →
      ∃ m, ParseMessage Compile admins c e = some m ∧ m.Authenticated = false) := by
  constructor
  · intro u hu
    obtain ⟨m, hm, -, ha, -⟩ := parseMessage_auth Compile admins c e _ _
      (parseAuth_direct Compile admins c e _ _ u hu hdm)
    exact ⟨m, hm, by rw [ha]; exact fullIssuerLoop_iff Compile _ admins⟩
  · intro hn
    obtain ⟨m, hm, -, ha, -⟩ := parseMessage_auth Compile admins c e _ _
      (parseAuth_unknown Compile admins c e _ _ hn)
    exact ⟨m, hm, ha⟩

/-- Claim C15, amended, at the direct message `hello` of `alice`, with the admin
list `["*@example.org"]` and a client that knows her. -/
theorem C15_witness :
    (directMessage "hello".toList).IsFromChannel = false ∧
    ∃ m, ParseMessage regexpCompile ["*@example.org".toList] distrustingClient
        (directMessage "hello".toList) = some m ∧
      (m.Authenticated = true ↔
        ∃ p ∈ ["*@example.org".toList],
          Matches regexpCompile p ("al".toList ++ "@".toList ++ "example.org".toList) = true) :=
  ⟨rfl, (C15_direct_message_authenticated_iff regexpCompile ["*@example.org".toList]
    distrustingClient (directMessage "hello".toList) rfl).1 _ rfl⟩

/-- Claim C16: for a channel message from a sender that the lookup knows,
`Authenticated` is the trusted flag of the sender's permissions in the channel,
and false when none is recorded for the channel, whatever the admin list; a
sender who is not authenticated is not admin; the `.ban x` of a sender who is
not trusted in the channel gives `Admin = false`, `Authenticated = false`,
`Command = "ban"` and `Params = ["x"]`, also when an admin pattern matches the
sender. -/
theorem C16_channel_message_authenticated_is_trusted (Compile : Compiler) (admins : List Str)
    (c : Client) (e : Event) (u : User) (channel : Str) (rest : List Str)
    (hch : e.IsFromChannel = true)
    (hknown : c.LookupUser (if e.Source.Name = [] then e.Source.Ident else e.Source.Name) =
      some u)
    (hp : e.Params = channel :: rest) :
    (∃ m, ParseMessage Compile admins c e = some m ∧ m.Channel = channel ∧
      m.Authenticated = (match u.Perms.Lookup channel with
        | some channelPerms => channelPerms.IsTrusted
        | none => false) ∧
      (m.Authenticated = false → m.Admin = false)) ∧
    (ParseMessage regexpCompile ["alice".toList] distrustingClient
      (channelMessage ".ban x".toList)).map
        (fun m => (m.Admin, m.Authenticated, m.Command, m.Params)) =
      some (false, false, "ban".toList, ["x".toList]) := by
  refine ⟨?_, by decide⟩
  obtain ⟨m, hm, hc, ha, hadm⟩ := parseMessage_auth Compile admins c e _ _
    (parseAuth_channel Compile admins c e _ _ u channel rest hknown hch hp)
  refine ⟨m, hm, hc, ha, fun hf => ?_⟩
  rw [hadm, ← ha, hf, Bool.and_false]

/-- Claim C16 at the channel message `.ban x` of `alice` in `#ops`, with the
admin list `["alice"]` and a client that trusts her there. -/
theorem C16_witness :
    (channelMessage ".ban x".toList).IsFromChannel = true ∧
    ∃ m, ParseMessage regexpCompile ["alice".toList] trustingClient
        (channelMessage ".ban x".toList) = some m ∧
      m.Channel = "#ops".toList ∧ m.Authenticated = true :=
  ⟨rfl, by
    obtain ⟨m, hm, hc, ha, -⟩ := (C16_channel_message_authenticated_is_trusted regexpCompile
      ["alice".toList] trustingClient (channelMessage ".ban x".toList) ⟨⟨fun _ => some ⟨true⟩⟩⟩
      "#ops".toList [".ban x".toList] rfl rfl rfl).1
    exact ⟨m, hm, hc, ha⟩⟩

/-- Claim C17: `DeduplicateList` returns a list without duplicates, sorted in
ascending lexicographic order, whose strings are exactly those of its argument;
applying it to its own result changes nothing; the order is that of the code
points, in which `B` comes before `a`. -/
theorem C17_DeduplicateList_sorted_nodup_same_elements (list : List Str) :
    (DeduplicateList list).Nodup ∧
    (DeduplicateList list).Sorted (fun a b => a < b) ∧
    (∀ x, x ∈ DeduplicateList list ↔ x ∈ list) ∧
    DeduplicateList (DeduplicateList list) = DeduplicateList list ∧
    DeduplicateList ["b".toList, "a".toList, "b".toList, "B".toList, "ab".toList] =
      ["B".toList, "a".toList, "ab".toList, "b".toList] := by
  obtain ⟨hnd, hmem⟩ := deduplicateLoop_spec list emptyMap []
    (fun x => by simp [mapHas, emptyMap]) List.nodup_nil
  have hperm : List.Perm (DeduplicateList list) (deduplicateLoop list emptyMap []) :=
    List.perm_insertionSort _ _
  have hsorted : (DeduplicateList list).Sorted (fun a b => a ≤ b) :=
    List.sorted_insertionSort _ _
  have hnd2 : (DeduplicateList list).Nodup := hperm.nodup_iff.2 hnd
  refine ⟨hnd2, hsorted.lt_of_le hnd2, fun x => ?_, ?_, by decide⟩
  · rw [hperm.mem_iff, hmem x]
    simp
  · have h1 : deduplicateLoop (DeduplicateList list) emptyMap [] = DeduplicateList list := by
      rw [deduplicateLoop_nodup _ emptyMap [] (fun _ _ => rfl) hnd2]
      rfl
    show sortStrings (deduplicateLoop (DeduplicateList list) emptyMap []) = _
    rw [h1]
    exact hsorted.insertionSort_eq

/-- Claim C18: `RemoveFromStringArr(list, items)` is the list filtered by
non-membership in `items`, order and multiplicity kept; with no item to remove
it is the list itself. -/
theorem C18_RemoveFromStringArr_eq_filter (list items : List Str) :
    RemoveFromStringArr list items = list.filter (fun x => decide (x ∉ items)) ∧
    RemoveFromStringArr list [] = list := by
  have h : ∀ its : List Str, RemoveFromStringArr list its =
      list.filter (fun x => decide (x ∉ its)) := by
    intro its
    unfold RemoveFromStringArr
    rw [removeLoop_spec its list emptyMap [] (fun k hk => by simp [mapHas, emptyMap] at hk)]
    rfl
  refine ⟨h items, ?_⟩
  rw [h []]
  simp

/-- Claim C19: the record returned by `ParseMessage` for a direct message has
`Admin = Authenticated`, whatever the sender, the lookup and the admin list. -/
theorem C19_direct_message_admin_eq_authenticated (Compile : Compiler) (admins : List Str)
    (c : Client) (e : Event) (hdm : e.IsFromChannel = false) :
    ∃ m, ParseMessage Compile admins c e = some m ∧ m.Admin = m.Authenticated := by
  cases hu : c.LookupUser (if e.Source.Name = [] then e.Source.Ident else e.Source.Name) with
  | none =>
    obtain ⟨m, hm, -, ha, hadm⟩ := parseMessage_auth Compile admins c e _ _
      (parseAuth_unknown Compile admins c e _ _ hu)
    exact ⟨m, hm, by rw [hadm, ha, Bool.and_false]⟩
  | some u =>
    obtain ⟨m, hm, -, ha, hadm⟩ := parseMessage_auth Compile admins c e _ _
      (parseAuth_direct Compile admins c e _ _ u hu hdm)
    refine ⟨m, hm, ?_⟩
    rw [hadm, ha]
    cases hf : fullIssuerLoop Compile (e.Source.Ident ++ "@".toList ++ e.Source.Host)
        admins false with
    | false => rw [Bool.and_false]
    | true =>
      obtain ⟨p, hp, hmatch⟩ := (fullIssuerLoop_iff Compile _ admins).1 hf
      have : IsAdmin Compile admins
          (if e.Source.Name = [] then e.Source.Ident else e.Source.Name)
          (e.Source.Ident ++ "@".toList ++ e.Source.Host) e.Source.Host = true :=
        (isAdminLoop_iff Compile _ _ _ admins).2 ⟨p, hp, Or.inr (Or.inr hmatch)⟩
      rw [this]
      rfl

/-- Claim C19 at the direct message `.kick bob` of `alice`, with the admin list
`["*@example.org"]`, which matches her full issuer only. -/
theorem C19_witness :
    (directMessage ".kick bob".toList).IsFromChannel = false ∧
    (ParseMessage regexpCompile ["*@example.org".toList] distrustingClient
      (directMessage ".kick bob".toList)).map (fun m => (m.Admin, m.Authenticated)) =
      some (true, true) ∧
    ∃ m, ParseMessage regexpCompile ["*@example.org".toList] distrustingClient
        (directMessage ".kick bob".toList) = some m ∧ m.Admin = m.Authenticated :=
  ⟨rfl, by decide,
    C19_direct_message_admin_eq_authenticated regexpCompile ["*@example.org".toList]
      distrustingClient (directMessage ".kick bob".toList) rfl⟩

/-- Claim C20: a pattern made of one or more `*` and nothing else is matched by
every candidate, the empty string included, and an admin list that contains
such a pattern makes `IsAdmin` return true for every identity. -/
theorem C20_asterisks_only_pattern_matches_everything (Compile : Compiler) (k : Nat)
    (hk : 0 < k) (s : Str) :
    Matches Compile (List.replicate k '*') s = true ∧
    Matches Compile (List.replicate k '*') [] = true ∧
    ∀ (admins : List Str) (issuer fullIssuer host : Str), List.replicate k '*' ∈ admins →
      IsAdmin Compile admins issuer fullIssuer host = true := by
  have hall : ∀ t : Str, Matches Compile (List.replicate k '*') t = true := by
    intro t
    obtain ⟨n, rfl⟩ : ∃ n, k = n + 1 := ⟨k - 1, by omega⟩
    have hre : HasPrefix (List.replicate (n + 1) '*') "re:".toList = false := by
      apply hasPrefix_eq_false
      rintro ⟨r, hr⟩
      rw [List.replicate_succ] at hr
      exact absurd (List.cons.inj hr).1 (by decide)
    have h1 : HasPrefix (List.replicate (n + 1) '*') "*".toList = true :=
      (hasPrefix_iff _ _).2 ⟨List.replicate n '*', by rw [List.replicate_succ]; rfl⟩
    have h2 : HasSuffix (List.replicate (n + 1) '*') "*".toList = true :=
      (hasSuffix_iff _ _).2 ⟨List.replicate n '*', by rw [List.replicate_succ']; rfl⟩
    have h3 : (List.replicate (n + 1) '*').filter (fun x => x != '*') = [] :=
      List.filter_replicate_of_neg (by simp)
    rw [matches_glob Compile _ t hre, h1, h2, h3]
    simp only [Bool.and_self, if_true]
    exact (contains_iff _ _).2 List.nil_infix
  refine ⟨hall s, hall [], fun admins issuer fullIssuer host hmem => ?_⟩
  exact (isAdminLoop_iff Compile issuer fullIssuer host admins).2
    ⟨_, hmem, Or.inl (hall issuer)⟩

/-- Claim C20 at the pattern `*` and the identity `mallory`,
`m@evil.example`, `evil.example`. -/
theorem C20_witness :
    Matches regexpCompile "*".toList "".toList = true ∧
    IsAdmin regexpCompile ["root".toList, "*".toList] "mallory".toList
      "m@evil.example".toList "evil.example".toList = true :=
  ⟨(C20_asterisks_only_pattern_matches_everything regexpCompile 1 (by decide) []).1,
    (C20_asterisks_only_pattern_matches_everything regexpCompile 1 (by decide) []).2.2
      ["root".toList, "*".toList] "mallory".toList "m@evil.example".toList
      "evil.example".toList (by decide)⟩

end Tusk
